import Mathlib

/-!
Shallow embedding of `src/shredder.c` (a secure-delete utility) and proofs
about its claimed properties.  The C functions are modelled as pure Lean
functions; system calls (getrandom, read, write, lseek, fdatasync/fsync,
rename, unlink) are modelled by explicit oracles: finite lists of outcomes
consumed in program order.  A model result of `none` means the supplied
oracle ran out of events before the program finished (an artefact of the
finite modelling, never a behaviour of the program).
-/

namespace Shredder

/-! ### Constants from the source -/

/-- `static size_t CHUNK = 1024 * 1024;` — the 1 MiB scratch-buffer chunk size. -/
def CHUNK : Nat := 1024 * 1024

/-- `alloc_buf` calls `exit(2)` when `malloc` fails; this is the process
exit status used for the allocation-failure abort. -/
def ALLOC_FAIL_EXIT : Nat := 2

/-! ### Scratch-buffer sizing (overwrite_file, line 136)

`size_t bufsize = (CHUNK < (size_t)size) ? CHUNK : (size_t)size ? (size_t)size : CHUNK;`
-/

/-- The scratch-buffer size computed by `overwrite_file` for a file of
length `size`, mirroring the C conditional expression exactly. -/
def bufsizeOf (size : Nat) : Nat :=
  if CHUNK < size then CHUNK else if size ≠ 0 then size else CHUNK

/-! ### Random hex basename (random_filename_in_dir, lines 91–115)

The C code fills `rndbuf[16]` with random bytes, then runs
`for (i = 0; i < name_len/2; ++i) sprintf(name + i*2, "%02x", rndbuf[i]);`
with `name_len = 16`, i.e. it renders only the first `16/2 = 8` bytes as
two lowercase hex digits each, and terminates the string at index 16.
-/

/-- `name_len` from the source: `size_t name_len = 16; /* 16 hex chars */`. -/
def name_len : Nat := 16

/-- One lowercase hexadecimal digit, as produced by `%02x`:
`0`–`9` for values below ten, `a`–`f` for ten to fifteen. -/
def hexDigit (n : Nat) : Char :=
  if n < 10 then Char.ofNat (48 + n) else Char.ofNat (87 + n)

/-- The two lowercase hex digits `%02x` prints for one byte. -/
def byteHex (b : Nat) : List Char :=
  [hexDigit (b % 256 / 16), hexDigit (b % 16)]

/-- The basename generated by `random_filename_in_dir` from the 16 random
bytes `rnd`: the first `name_len / 2 = 8` bytes rendered as lowercase hex,
`name_len = 16` characters in all. -/
def random_basename (rnd : List Nat) : List Char :=
  ((rnd.take (name_len / 2)).map byteHex).flatten

/-- Recogniser for a lowercase hexadecimal digit character. -/
def isLowerHexDigit (c : Char) : Bool :=
  (decide (48 ≤ c.toNat) && decide (c.toNat ≤ 57)) ||
  (decide (97 ≤ c.toNat) && decide (c.toNat ≤ 102))

/-! ### Per-file processing and exit status (main, lines 238–288)

One file's run through the main loop is characterised by the outcomes of
the operations attempted on it, in program order: `overwrite_file`,
`random_filename_in_dir`, `rename`, `unlink(newname)`, `unlink(path)`.
-/

/-- Outcomes of the system operations attempted on one input file. -/
structure FileRun where
  ovOk : Bool          -- `overwrite_file` returned 0
  nameOk : Bool        -- `random_filename_in_dir` returned non-NULL
  renameOk : Bool      -- `rename(path, newname)` returned 0
  unlinkNewOk : Bool   -- `unlink(newname)` returned 0
  unlinkOrigOk : Bool  -- `unlink(path)` returned 0
deriving DecidableEq, Repr

/-- Whether one file's processing completes without setting `exit_status = 2`,
following the control flow of the body of the loop in `main`. -/
def fileOk (r : FileRun) : Bool :=
  if !r.ovOk then false
  else if r.nameOk && r.renameOk then r.unlinkNewOk
  else r.unlinkOrigOk

/-- The exit status produced by `main`'s loop over the input files:
`exit_status` starts at 0 and is set to 2 by any failing file, while the
loop continues over the remaining files. -/
def mainExitStatus (files : List FileRun) : Nat :=
  files.foldl (fun st r => if fileOk r then st else 2) 0

/-! ### Filesystem state and the obfuscate-and-remove sequence (main, lines 250–285)

The directory is modelled as the set of pathnames that currently exist,
as a Boolean-valued function.  `rename` and `unlink` act on this state
only when the corresponding oracle says the call succeeded; a failed call
leaves the state unchanged (POSIX failure semantics for these calls).
-/

/-- Filesystem state: which paths currently exist. -/
def FsState : Type := String → Bool

/-- State after a successful `unlink p`. -/
def fsRemove (st : FsState) (p : String) : FsState :=
  fun q => if q = p then false else st q

/-- State after a successful `rename old new`: the entry leaves `old`
and (re)appears at `new`, replacing any previous entry there. -/
def fsRename (st : FsState) (old new : String) : FsState :=
  fun q => if q = new then st old else if q = old then false else st q

/-- Outcome of the obfuscate-and-remove sequence for one file: the final
filesystem state and whether the sequence counts as successful (i.e. does
not set `exit_status = 2`). -/
structure ObfResult where
  state : FsState
  ok : Bool

/-- The rename-to-random-name-then-unlink sequence from the tail of
`main`'s loop, for a file at `path` with generated sibling name `newname`:

* if `random_filename_in_dir` failed (`nameOk = false`), fall through to
  `unlink(path)`;
* if `rename(path, newname)` fails, free the name and fall through to
  `unlink(path)`;
* if the rename succeeds, fsync the directory (no state change) and
  `unlink(newname)`; failure of that unlink sets `exit_status = 2`, and
  the original path is not unlinked (`continue`). -/
def obfuscateAndRemove (st : FsState) (path newname : String) (r : FileRun) :
    ObfResult :=
  if r.nameOk then
    if r.renameOk then
      let st1 := fsRename st path newname
      if r.unlinkNewOk then ⟨fsRemove st1 newname, true⟩ else ⟨st1, false⟩
    else
      if r.unlinkOrigOk then ⟨fsRemove st path, true⟩ else ⟨st, false⟩
  else
    if r.unlinkOrigOk then ⟨fsRemove st path, true⟩ else ⟨st, false⟩

/-! ### Random Byte Source (fill_random, lines 44–81)

`fill_random` first loops on `getrandom`, retrying `EINTR` and absorbing
partial fills, and on a hard error falls back to reading `/dev/urandom`
from the start of the buffer until full, `EINTR` retried, stopping on
end-of-stream or error.  Each syscall's outcome comes from an oracle list.
-/

/-- One outcome of a `getrandom` call: `n` bytes delivered, `EINTR`, or a
hard error. -/
inductive GrStep where
  | ok (n : Nat)
  | eintr
  | err
deriving DecidableEq, Repr

/-- One outcome of a `read` from `/dev/urandom`: `n` bytes delivered
(`0` meaning end of stream), `EINTR`, or an error. -/
inductive RdStep where
  | ok (n : Nat)
  | eintr
  | err
deriving DecidableEq, Repr

/-- The `getrandom` loop of `fill_random`: returns `(left, hardErr)` — the
bytes still unfilled and whether the loop stopped on a hard error (the only
way it stops with `left ≠ 0`).  The delivered count is clamped to the
request size, as the kernel guarantees. -/
def grLoop : List GrStep → Nat → Option (Nat × Bool)
  | _, 0 => some (0, false)
  | [], _ + 1 => none
  | s :: rest, left + 1 =>
    match s with
    | .ok n => grLoop rest (left + 1 - min n (left + 1))
    | .eintr => grLoop rest (left + 1)
    | .err => some (left + 1, true)

/-- The `/dev/urandom` read loop of `fill_random`: from `total` bytes
already read, returns the pair (C result, bytes actually read into the
buffer).  The C result is `none` on error (C's `total = -1`) and otherwise
the final byte count; `read` returning `0` (end of stream) stops the loop
short. -/
def rdLoop : List RdStep → Nat → Nat → Option (Option Nat × Nat)
  | [], len, total => if len ≤ total then some (some total, total) else none
  | s :: rest, len, total =>
    if len ≤ total then some (some total, total)
    else
      match s with
      | .ok n => if n = 0 then some (some total, total)
                 else rdLoop rest len (total + min n (len - total))
      | .eintr => rdLoop rest len total
      | .err => some (none, total)

/-- Oracle for one `fill_random` call: the `getrandom` outcomes, whether
`open("/dev/urandom")` succeeds, and the `read` outcomes. -/
structure RandEnv where
  gr : List GrStep
  urandomOpenOk : Bool
  rd : List RdStep

/-- Result of one `fill_random` call: the C return value, the number of
leading buffer bytes filled with fresh random data, and whether the
`/dev/urandom` fallback path was entered. -/
structure FillResult where
  ret : Int
  filled : Nat
  usedFallback : Bool
deriving DecidableEq, Repr

/-- `fill_random(buf, len)`: try `getrandom` until the buffer is full,
fall back to `/dev/urandom` on a hard error, and return the number of
bytes the returning path delivered (`-1` on failure). -/
def fill_random (env : RandEnv) (len : Nat) : Option FillResult :=
  match grLoop env.gr len with
  | none => none
  | some (left, _) =>
    if left = 0 then some ⟨(len : Int), len, false⟩
    else if !env.urandomOpenOk then some ⟨-1, len - left, true⟩
    else
      match rdLoop env.rd len 0 with
      | none => none
      | some (none, rd) => some ⟨-1, max (len - left) rd, true⟩
      | some (some t, rd) => some ⟨(t : Int), max (len - left) rd, true⟩

/-! ### File objects and `stat` (overwrite_file, lines 117–126)

`overwrite_file` validates the target with `stat`, which *resolves*
symbolic links: the type test is applied to the link's referent, not to
the link itself.  A dangling link makes `stat` fail. -/

/-- What a pathname designates on the filesystem. -/
inductive FObj where
  | reg (size : Nat)   -- regular file of the given length
  | dir
  | fifo
  | sock
  | blk                -- block device
  | chr                -- character device
  | symlink (t : FObj) -- symbolic link to an existing object
  | danglingLink       -- symbolic link whose target does not exist
deriving DecidableEq, Repr

/-- `stat`: resolve symlinks; fail (`ENOENT`) on a dangling link. -/
def statResolve : FObj → Option FObj
  | .symlink t => statResolve t
  | .danglingLink => none
  | o => some o

/-- `S_ISREG` on the `stat` result. -/
def S_ISREG : FObj → Bool
  | .reg _ => true
  | _ => false

/-- `st.st_size` of a regular file (irrelevant otherwise). -/
def regSize : FObj → Nat
  | .reg s => s
  | _ => 0

/-! ### Overwrite engine trace model (overwrite_file, lines 117–207)

The engine's externally visible actions are recorded as a trace of
events; syscall outcomes are drawn from oracle lists in `OvEnv`. -/

/-- Observable actions of `overwrite_file` on the open file. -/
inductive Ev where
  | fillRandom (n : Nat)              -- fill_random(buf, n) invoked
  | write (off len : Nat) (zero : Bool) -- write() stored len bytes at offset off
  | syncAttempt (ok : Bool)           -- durability checkpoint issued
  | memsetZero                        -- scratch buffer cleared for the zero pass
deriving DecidableEq, Repr

/-- One outcome of a `write` call: `n` bytes accepted, `EINTR`, or error. -/
inductive WStep where
  | ok (n : Nat)
  | eintr
  | err
deriving DecidableEq, Repr

/-- `sync_and_check(fd)` (lines 83–88): `fdatasync`, falling back to
`fsync`; `0` on success, `-1` when both fail.  The argument gives the two
calls' outcomes. -/
def sync_and_check (s : Bool × Bool) : Int :=
  if s.1 then 0 else if s.2 then 0 else -1

/-- Oracle streams for one `overwrite_file` call, consumed in program
order. -/
structure OvEnv where
  openOk : Bool                 -- open(path, O_WRONLY) succeeds
  fills : List Bool             -- fill_random returned the full request?
  writes : List WStep
  lseeks : List Bool            -- lseek(fd, 0, SEEK_SET) succeeds?
  syncs : List (Bool × Bool)    -- (fdatasync ok, fsync ok) per checkpoint
deriving Repr

/-- Output of one pass's inner write loop: the unconsumed oracle
suffixes, the events, and whether the loop completed. -/
structure LoopOut where
  fills : List Bool
  writes : List WStep
  evs : List Ev
  ok : Bool
deriving Repr

/-- The chunked write loop of one pass (`while (written_total < size)`,
lines 148–166 for the random pass, 184–196 for the zero pass):
compute `towrite = min(bufsize, size - written)`; for a random pass
refill the buffer (aborting the file on a short fill); `write` the chunk,
retrying `EINTR` at the same position, aborting on error, and advancing
by the accepted byte count. -/
def passLoop (size bufsize : Nat) (isZero : Bool) :
    List Bool → List WStep → Nat → Option LoopOut
  | fills, [], written =>
    if size ≤ written then some ⟨fills, [], [], true⟩ else none
  | fills, w :: ws, written =>
    if size ≤ written then some ⟨fills, w :: ws, [], true⟩
    else
      let towrite := min bufsize (size - written)
      match isZero, fills with
      | false, [] => none
      | false, fok :: fr =>
        if fok then
          match w with
          | .eintr =>
            (passLoop size bufsize false fr ws written).map
              (fun r => { r with evs := Ev.fillRandom towrite :: r.evs })
          | .err => some ⟨fr, ws, [Ev.fillRandom towrite], false⟩
          | .ok n =>
            (passLoop size bufsize false fr ws (written + min n towrite)).map
              (fun r => { r with evs := Ev.fillRandom towrite ::
                            Ev.write written (min n towrite) false :: r.evs })
        else some ⟨fr, w :: ws, [Ev.fillRandom towrite], false⟩
      | true, fl =>
        match w with
        | .eintr =>
          (passLoop size bufsize true fl ws written).map (fun r => r)
        | .err => some ⟨fl, ws, [], false⟩
        | .ok n =>
          (passLoop size bufsize true fl ws (written + min n towrite)).map
            (fun r => { r with evs := Ev.write written (min n towrite) true :: r.evs })

/-- The oracle streams threaded through the pass structure. -/
structure PassState where
  fills : List Bool
  writes : List WStep
  lseeks : List Bool
  syncs : List (Bool × Bool)
deriving Repr

/-- Result of one full pass. -/
structure PassOut where
  st : PassState
  evs : List Ev
  ok : Bool
deriving Repr

/-- One pass (random when `isZero = false`, the final zero pass
otherwise): `lseek` to 0 (failure aborts the file), for the zero pass
`memset` the buffer once, run the write loop, and on completion issue the
durability checkpoint, whose outcome is only recorded (a warning), never
acted upon. -/
def onePass (size bufsize : Nat) (isZero : Bool) (st : PassState) :
    Option PassOut :=
  match st.lseeks with
  | [] => none
  | lok :: lr =>
    if !lok then some ⟨{ st with lseeks := lr }, [], false⟩
    else
      let memEvs := if isZero then [Ev.memsetZero] else []
      match passLoop size bufsize isZero st.fills st.writes 0 with
      | none => none
      | some r =>
        if r.ok then
          match st.syncs with
          | [] => none
          | s :: sr =>
            some ⟨⟨r.fills, r.writes, lr, sr⟩,
              memEvs ++ r.evs ++ [Ev.syncAttempt (decide (sync_and_check s = 0))],
              true⟩
        else some ⟨⟨r.fills, r.writes, lr, st.syncs⟩, memEvs ++ r.evs, false⟩

/-- The `for (pass = 1; pass <= passes; ++pass)` loop (lines 139–172):
random passes in order, stopping at the first failing pass. -/
def passesLoop (size bufsize : Nat) :
    Nat → PassState → Option (PassState × List Ev × Bool)
  | 0, st => some (st, [], true)
  | n + 1, st =>
    match onePass size bufsize false st with
    | none => none
    | some r =>
      if r.ok then
        (passesLoop size bufsize n r.st).map
          (fun q => (q.1, r.evs ++ q.2.1, q.2.2))
      else some (r.st, r.evs, false)

/-- Result of `overwrite_file`: the event trace, the C return value
(`0` or `-1`), and whether the file was opened for writing. -/
structure OvResult where
  evs : List Ev
  ret : Int
  opened : Bool
deriving DecidableEq, Repr

/-- `overwrite_file(path, passes, final_zero, verbose)` (lines 117–207):
`stat` the path (resolving symlinks) and reject non-regular targets; open
for writing (no truncation); size the scratch buffer with `bufsizeOf`;
run the random passes, then the optional zero pass. -/
def overwrite_file (obj : FObj) (passes : Nat) (final_zero : Bool)
    (env : OvEnv) : Option OvResult :=
  match statResolve obj with
  | none => some ⟨[], -1, false⟩
  | some o =>
    if !(S_ISREG o) then some ⟨[], -1, false⟩
    else if !env.openOk then some ⟨[], -1, false⟩
    else
      let size := regSize o
      let bufsize := bufsizeOf size
      match passesLoop size bufsize passes
          ⟨env.fills, env.writes, env.lseeks, env.syncs⟩ with
      | none => none
      | some (st, evs, ok) =>
        if !ok then some ⟨evs, -1, true⟩
        else if final_zero then
          match onePass size bufsize true st with
          | none => none
          | some r => some ⟨evs ++ r.evs, if r.ok then 0 else -1, true⟩
        else some ⟨evs, 0, true⟩

/-! ### Trace-counting helpers -/

/-- Does event `e` write byte offset `i` with data of kind `z`
(`false` = random, `true` = zeros)? -/
def coversAt (z : Bool) (i : Nat) : Ev → Bool
  | .write o l zz => zz == z && decide (o ≤ i) && decide (i < o + l)
  | _ => false

/-- How many writes of kind `z` in `evs` cover byte offset `i`. -/
def writeCountAt (evs : List Ev) (z : Bool) (i : Nat) : Nat :=
  evs.countP (coversAt z i)

/-- Event classifiers. -/
def isFillEv : Ev → Bool
  | .fillRandom _ => true
  | _ => false

def isSyncEv : Ev → Bool
  | .syncAttempt _ => true
  | _ => false

def isMemsetEv : Ev → Bool
  | .memsetZero => true
  | _ => false

def isWriteEv : Ev → Bool
  | .write _ _ _ => true
  | _ => false

/-- A write event stays inside the original extent `[0, L)`. -/
def writeWithin (L : Nat) : Ev → Prop
  | .write o l _ => o + l ≤ L
  | _ => True

/-- The file length after replaying the trace against a file of initial
length `L` (a write extends the file exactly when it passes the end). -/
def lengthAfter (L : Nat) (evs : List Ev) : Nat :=
  evs.foldl (fun acc e => match e with
    | .write o l _ => max acc (o + l)
    | _ => acc) L

/-- Normalise the recorded checkpoint outcomes in a trace (used to state
that behaviour does not depend on them). -/
def stripSync : Ev → Ev
  | .syncAttempt _ => .syncAttempt true
  | e => e

/-- Well-formedness of an event produced by the write loop of one pass
started at offset `written` on a file of length `size`: only buffer fills
and writes occur, and every write lies in `[written, size)`-bounds with
the pass's data kind. -/
def passEvOk (size written : Nat) (isZero : Bool) : Ev → Prop
  | .write o l zz => written ≤ o ∧ o + l ≤ size ∧ zz = isZero
  | .fillRandom _ => True
  | .syncAttempt _ => False
  | .memsetZero => False

/-- Stream state with the checkpoint oracle reduced to its length (used
to state that behaviour does not depend on checkpoint outcomes). -/
def normSt (st : PassState) : List Bool × List WStep × List Bool × Nat :=
  (st.fills, st.writes, st.lseeks, st.syncs.length)

/-- Pass output up to checkpoint outcomes. -/
def normPassOut (r : PassOut) :
    (List Bool × List WStep × List Bool × Nat) × List Ev × Bool :=
  (normSt r.st, r.evs.map stripSync, r.ok)

/-- Passes-loop output up to checkpoint outcomes. -/
def normPasses (q : PassState × List Ev × Bool) :
    (List Bool × List WStep × List Bool × Nat) × List Ev × Bool :=
  (normSt q.1, q.2.1.map stripSync, q.2.2)

/-- `overwrite_file` output up to checkpoint outcomes. -/
def normOv (r : OvResult) : Int × Bool × List Ev :=
  (r.ret, r.opened, r.evs.map stripSync)

/-! ## Theorems -/

/-! ### C8: scratch-buffer sizing -/

/-- C8: the scratch buffer allocated by `overwrite_file` has size
`min CHUNK L` for a file of length `L`, except that a zero-length file
gets the full `CHUNK`, so the allocation size is never zero. -/
theorem bufsize_min_chunk_never_zero (size : Nat) :
    bufsizeOf size = (if size = 0 then CHUNK else min CHUNK size) ∧
    0 < bufsizeOf size := by
  unfold bufsizeOf CHUNK
  split_ifs <;> omega

/-! ### C1: generated basename (corrected) -/

/-- C1 counterexample: on the concrete 16 zero random bytes, the generated
basename has 16 characters, not the claimed 32 — the code renders only the
first `name_len/2 = 8` of the 16 random bytes. -/
theorem basename_not_32_chars :
    (random_basename (List.replicate 16 0)).length = 16 ∧
    (random_basename (List.replicate 16 0)).length ≠ 32 := by
  constructor <;> decide

/-- Length of flattening two-character hex renderings. -/
theorem flatten_map_byteHex_length (l : List Nat) :
    ((l.map byteHex).flatten).length = 2 * l.length := by
  induction l with
  | nil => simp
  | cons a t ih =>
    simp only [List.map_cons, List.flatten_cons, List.length_append, ih,
      List.length_cons, byteHex, List.length_cons, List.length_nil]
    omega

/-- `%02x` produces lowercase hex digits. -/
theorem hexDigit_lower {n : Nat} (h : n < 16) :
    isLowerHexDigit (hexDigit n) = true := by
  interval_cases n <;> decide

/-- C1 (amended): for any 16 random bytes, the generated basename is a
fixed-length lowercase hexadecimal string of `name_len = 16` characters,
rendered from the first 8 of those bytes — i.e. it carries 64 bits of
randomness, not the claimed 128. -/
theorem basename_fixed_length_lowercase_hex (rnd : List Nat)
    (h : rnd.length = 16) :
    (random_basename rnd).length = name_len ∧
    ∀ c ∈ random_basename rnd, isLowerHexDigit c = true := by
  constructor
  · unfold random_basename
    rw [flatten_map_byteHex_length, List.length_take, h]
    rfl
  · intro c hc
    unfold random_basename at hc
    rw [List.mem_flatten] at hc
    obtain ⟨lc, hlc, hcin⟩ := hc
    rw [List.mem_map] at hlc
    obtain ⟨b, _, rfl⟩ := hlc
    simp only [byteHex, List.mem_cons, List.not_mem_nil, or_false] at hcin
    have h1 : b % 256 / 16 < 16 := by
      have : b % 256 < 256 := Nat.mod_lt _ (by norm_num)
      omega
    have h2 : b % 16 < 16 := Nat.mod_lt _ (by norm_num)
    rcases hcin with rfl | rfl
    · exact hexDigit_lower h1
    · exact hexDigit_lower h2

/-- Witness for `basename_fixed_length_lowercase_hex` at a concrete
16-byte input. -/
theorem basename_fixed_length_lowercase_hex_witness :
    (random_basename (List.replicate 16 171)).length = name_len ∧
    ∀ c ∈ random_basename (List.replicate 16 171), isLowerHexDigit c = true :=
  basename_fixed_length_lowercase_hex (List.replicate 16 171) (by decide)

/-! ### C3: exit status (corrected) -/

/-- C3 counterexample: when a file fails, `main` exits with status 2,
which is exactly `ALLOC_FAIL_EXIT`, the status `alloc_buf` uses for the
malloc-failure abort — the two are not distinct. -/
theorem mainExit_equals_alloc_abort_status :
    mainExitStatus [⟨false, true, true, true, true⟩] = 2 ∧
    mainExitStatus [⟨false, true, true, true, true⟩] = ALLOC_FAIL_EXIT := by
  constructor <;> decide

/-- The fold in `main` yields `st` when every file succeeds and `2` as
soon as any file fails, regardless of position. -/
theorem mainFold_characterisation (files : List FileRun) (st : Nat) :
    files.foldl (fun st r => if fileOk r then st else 2) st =
      if ∀ r ∈ files, fileOk r = true then st else 2 := by
  induction files generalizing st with
  | nil => simp
  | cons a t ih =>
    simp only [List.foldl_cons, List.mem_cons, forall_eq_or_imp]
    by_cases h : fileOk a = true
    · rw [if_pos h, ih]
      by_cases h2 : ∀ r ∈ t, fileOk r = true
      · rw [if_pos h2, if_pos ⟨h, h2⟩]
      · rw [if_neg h2, if_neg (fun hc => h2 hc.2)]
    · rw [if_neg h, ih]
      have hna : ¬ (fileOk a = true ∧ ∀ r ∈ t, fileOk r = true) :=
        fun hc => h hc.1
      rw [if_neg hna]
      split <;> rfl

/-- C3 (amended): the exit status is 0 exactly when every input file is
processed successfully; any per-file failure yields the nonzero status 2,
which is the *same* value as the allocation-failure abort status, not a
distinct one; every file in the list contributes (the fold never
short-circuits). -/
theorem mainExitStatus_spec (files : List FileRun) :
    mainExitStatus files =
      (if ∀ r ∈ files, fileOk r = true then 0 else ALLOC_FAIL_EXIT) ∧
    (mainExitStatus files = 0 ↔ ∀ r ∈ files, fileOk r = true) := by
  have h := mainFold_characterisation files 0
  unfold mainExitStatus
  rw [h]
  refine ⟨rfl, ?_⟩
  split <;> simp_all [ALLOC_FAIL_EXIT]

/-! ### C7: obfuscate-and-remove -/

/-- C7: after the obfuscate-and-remove sequence succeeds, the original
path no longer exists; if the rename path was taken, the random
intermediate path no longer exists either; and whenever the rename fails
or no random basename could be generated, the removal is a direct unlink
of the original path: the rest of the filesystem — in particular any
intermediate path — is untouched. -/
theorem obfuscate_removes_both_paths (st : FsState) (path newname : String)
    (fr : FileRun) :
    ((obfuscateAndRemove st path newname fr).ok = true →
      (obfuscateAndRemove st path newname fr).state path = false) ∧
    (fr.nameOk = true → fr.renameOk = true →
      (obfuscateAndRemove st path newname fr).ok = true →
      (obfuscateAndRemove st path newname fr).state newname = false ∧
      (obfuscateAndRemove st path newname fr).state path = false) ∧
    ((fr.nameOk = false ∨ fr.renameOk = false) →
      (obfuscateAndRemove st path newname fr).state =
        (if fr.unlinkOrigOk then fsRemove st path else st) ∧
      (obfuscateAndRemove st path newname fr).ok = fr.unlinkOrigOk ∧
      ∀ q, q ≠ path → (obfuscateAndRemove st path newname fr).state q = st q) := by
  obtain ⟨ov, nm, rn, un, uo⟩ := fr
  cases nm <;> cases rn <;> cases un <;> cases uo <;>
    simp only [obfuscateAndRemove, fsRemove, fsRename, if_true, if_false,
      Bool.true_eq_false, Bool.false_eq_true] <;>
    refine ⟨?_, ?_, ?_⟩ <;>
    intro h <;>
    simp_all

/-- Witness for `obfuscate_removes_both_paths`: a successful run on a
concrete one-entry directory removes the original entry. -/
theorem obfuscate_removes_both_paths_witness :
    (obfuscateAndRemove (fun q => q == "d/orig") "d/orig" "d/0a1b"
      ⟨true, true, true, true, true⟩).state "d/orig" = false :=
  (obfuscate_removes_both_paths (fun q => q == "d/orig") "d/orig" "d/0a1b"
    ⟨true, true, true, true, true⟩).1 (by decide)

/-! ### C5: fill_random -/

/-- Invariant of the `getrandom` loop: the unfilled remainder never grows,
and the loop stops with a nonzero remainder exactly when it hit a hard
error. -/
theorem grLoop_spec (gs : List GrStep) :
    ∀ (left l : Nat) (b : Bool), grLoop gs left = some (l, b) →
    l ≤ left ∧ (b = true ↔ l ≠ 0) := by
  induction gs with
  | nil =>
    intro left l b h
    cases left with
    | zero =>
      simp only [grLoop, Option.some.injEq, Prod.mk.injEq] at h
      obtain ⟨rfl, rfl⟩ := h
      simp
    | succ k => simp [grLoop] at h
  | cons s rest ih =>
    intro left l b h
    cases left with
    | zero =>
      simp only [grLoop, Option.some.injEq, Prod.mk.injEq] at h
      obtain ⟨rfl, rfl⟩ := h
      simp
    | succ k =>
      cases s with
      | ok n =>
        rw [grLoop] at h
        have := ih _ _ _ h
        exact ⟨le_trans this.1 (by omega), this.2⟩
      | eintr =>
        rw [grLoop] at h
        exact ih _ _ _ h
      | err =>
        simp only [grLoop, Option.some.injEq, Prod.mk.injEq] at h
        obtain ⟨rfl, rfl⟩ := h
        simp

/-- Invariant of the `/dev/urandom` read loop: the byte count never
shrinks, never exceeds the request, an error stops it strictly short, and
a non-error result reports exactly the bytes read. -/
theorem rdLoop_spec (rs : List RdStep) :
    ∀ (len total : Nat) (res : Option Nat) (rd : Nat),
    rdLoop rs len total = some (res, rd) → total ≤ len →
    total ≤ rd ∧ rd ≤ len ∧ (res = none → rd < len) ∧
      ∀ t, res = some t → t = rd := by
  induction rs with
  | nil =>
    intro len total res rd h htl
    simp only [rdLoop] at h
    split at h
    · simp only [Option.some.injEq, Prod.mk.injEq] at h
      obtain ⟨rfl, rfl⟩ := h
      exact ⟨le_refl _, htl, by simp, fun t ht => by
        injection ht with ht; omega⟩
    · simp at h
  | cons s rest ih =>
    intro len total res rd h htl
    simp only [rdLoop] at h
    split at h
    · simp only [Option.some.injEq, Prod.mk.injEq] at h
      obtain ⟨rfl, rfl⟩ := h
      exact ⟨le_refl _, htl, by simp, fun t ht => by
        injection ht with ht; omega⟩
    · rename_i hlt
      cases s with
      | ok n =>
        simp only at h
        split at h
        · simp only [Option.some.injEq, Prod.mk.injEq] at h
          obtain ⟨rfl, rfl⟩ := h
          exact ⟨le_refl _, htl, fun _ => by omega, fun t ht => by
            injection ht with ht; omega⟩
        · have := ih _ _ _ _ h (by omega)
          exact ⟨by omega, this.2.1, this.2.2.1, this.2.2.2⟩
      | eintr =>
        simp only at h
        exact ih _ _ _ _ h htl
      | err =>
        simp only [Option.some.injEq, Prod.mk.injEq] at h
        obtain ⟨rfl, rfl⟩ := h
        exact ⟨le_refl _, by omega, fun _ => by omega, fun t ht => by
          injection ht⟩

/-- Prepending an interrupted `getrandom` call changes nothing. -/
theorem grLoop_eintr (gs : List GrStep) (left : Nat) :
    grLoop (GrStep.eintr :: gs) left = grLoop gs left := by
  cases left with
  | zero => simp [grLoop]
  | succ k =>
    cases gs with
    | nil => rfl
    | cons s rest => rfl

/-- Prepending an interrupted `read` changes nothing at the start of the
fallback loop. -/
theorem rdLoop_eintr (rs : List RdStep) (len : Nat) :
    rdLoop (RdStep.eintr :: rs) len 0 = rdLoop rs len 0 := by
  cases len with
  | zero =>
    cases rs with
    | nil => rfl
    | cons s rest => cases s <;> rfl
  | succ k =>
    simp only [rdLoop]
    rw [if_neg (by omega)]

/-- C5: `fill_random` reports success (return value = requested length)
exactly when the whole buffer has been filled with random bytes; an
interrupted `getrandom` or `read` is retried transparently (prepending
one leaves the result unchanged); and the `/dev/urandom` fallback runs
exactly when the `getrandom` loop stopped on a hard error with bytes
still missing. -/
theorem fill_random_success_iff_full (env : RandEnv) (len : Nat)
    (r : FillResult) (h : fill_random env len = some r) :
    ((r.ret = (len : Int)) ↔ r.filled = len) ∧
    (r.usedFallback = false → r.ret = (len : Int) ∧ r.filled = len) ∧
    (r.usedFallback = true ↔
      ∃ l, grLoop env.gr len = some (l, true) ∧ l ≠ 0) ∧
    fill_random { env with gr := GrStep.eintr :: env.gr } len = some r ∧
    fill_random { env with rd := RdStep.eintr :: env.rd } len = some r := by
  unfold fill_random at h ⊢
  rw [grLoop_eintr]
  match hgr : grLoop env.gr len with
  | none =>
    simp only [hgr] at h
    exact absurd h (by simp)
  | some (left, b) =>
    have hspec := grLoop_spec env.gr len left b hgr
    simp only [hgr] at h ⊢
    by_cases hl : left = 0
    · subst hl
      have hb : b = false := by
        cases b with
        | false => rfl
        | true => exact absurd rfl (hspec.2.mp rfl)
      subst hb
      simp only [if_pos rfl] at h ⊢
      injection h with h
      subst h
      refine ⟨by simp, fun _ => ⟨rfl, rfl⟩, ?_, rfl, rfl⟩
      simp
    · have hlt : left ≤ len := hspec.1
      have hllen : len - left < len := by omega
      simp only [if_neg hl] at h ⊢
      by_cases ho : env.urandomOpenOk = true
    -- fallback via /dev/urandom
      · rw [rdLoop_eintr]
        simp only [ho, Bool.not_true, Bool.false_eq_true, if_false] at h ⊢
        match hrd : rdLoop env.rd len 0 with
        | none =>
          simp only [hrd] at h
          exact absurd h (by simp)
        | some (res, rd) =>
          have hrs := rdLoop_spec env.rd len 0 res rd hrd (by omega)
          simp only [hrd] at h ⊢
          cases res with
          | none =>
            injection h with h
            subst h
            have hrdlt : rd < len := hrs.2.2.1 rfl
            refine ⟨?_, by simp, ?_, rfl, rfl⟩
            · constructor
              · intro hc
                simp only [FillResult.ret] at hc
                omega
              · intro hc
                simp only [FillResult.filled] at hc
                omega
            · simp only [true_iff]
              refine ⟨left, ?_, hl⟩
              rw [hspec.2.mpr hl]
          | some t =>
            have ht : t = rd := hrs.2.2.2 t rfl
            subst ht
            have hrd_le : t ≤ len := hrs.2.1
            injection h with h
            subst h
            refine ⟨?_, by simp, ?_, rfl, rfl⟩
            · constructor
              · intro hc
                simp only [FillResult.ret, Nat.cast_inj] at hc
                simp only [FillResult.filled]
                omega
              · intro hc
                simp only [FillResult.filled] at hc
                simp only [FillResult.ret]
                have : t = len := by omega
                exact congrArg _ this
            · simp only [true_iff]
              refine ⟨left, ?_, hl⟩
              rw [hspec.2.mpr hl]
      · simp only [Bool.not_eq_true] at ho
        simp only [ho, Bool.not_false, if_true] at h ⊢
        injection h with h
        subst h
        refine ⟨?_, by simp, ?_, rfl, rfl⟩
        · constructor
          · intro hc
            simp only [FillResult.ret] at hc
            omega
          · intro hc
            simp only [FillResult.filled] at hc
            omega
        · simp only [true_iff]
          refine ⟨left, ?_, hl⟩
          rw [hspec.2.mpr hl]

/-- Witness for `fill_random_success_iff_full`: a concrete call that
fills 5 bytes through `getrandom` alone. -/
theorem fill_random_success_iff_full_witness :
    ((⟨(5 : Int), 5, false⟩ : FillResult).ret = ((5 : Nat) : Int)) ↔
      (⟨(5 : Int), 5, false⟩ : FillResult).filled = 5 :=
  (fill_random_success_iff_full ⟨[GrStep.ok 5], true, []⟩ 5
    ⟨(5 : Int), 5, false⟩ (by decide)).1

/-! ### Trace-counting lemmas -/

/-- A buffer fill covers no byte. -/
theorem countAt_cons_fill (n : Nat) (evs : List Ev) (z : Bool) (i : Nat) :
    writeCountAt (Ev.fillRandom n :: evs) z i = writeCountAt evs z i := by
  simp [writeCountAt, List.countP_cons, coversAt]

/-- A checkpoint covers no byte. -/
theorem countAt_cons_sync (b : Bool) (evs : List Ev) (z : Bool) (i : Nat) :
    writeCountAt (Ev.syncAttempt b :: evs) z i = writeCountAt evs z i := by
  simp [writeCountAt, List.countP_cons, coversAt]

/-- A buffer clear covers no byte. -/
theorem countAt_cons_memset (evs : List Ev) (z : Bool) (i : Nat) :
    writeCountAt (Ev.memsetZero :: evs) z i = writeCountAt evs z i := by
  simp [writeCountAt, List.countP_cons, coversAt]

/-- Unfolding the count over a leading write event. -/
theorem countAt_cons_write (o l : Nat) (zz z : Bool) (evs : List Ev) (i : Nat) :
    writeCountAt (Ev.write o l zz :: evs) z i =
      writeCountAt evs z i + (if zz = z ∧ o ≤ i ∧ i < o + l then 1 else 0) := by
  have hiff : (coversAt z i (Ev.write o l zz) = true) ↔
      (zz = z ∧ o ≤ i ∧ i < o + l) := by
    simp [coversAt, and_assoc]
  simp only [writeCountAt, List.countP_cons]
  by_cases hc : zz = z ∧ o ≤ i ∧ i < o + l
  · rw [if_pos (hiff.mpr hc), if_pos hc]
  · rw [if_neg (fun hb => hc (hiff.mp hb)), if_neg hc]

/-- The count distributes over trace concatenation. -/
theorem countAt_append (a b : List Ev) (z : Bool) (i : Nat) :
    writeCountAt (a ++ b) z i = writeCountAt a z i + writeCountAt b z i := by
  simp [writeCountAt, List.countP_append]

/-- A trace whose events all satisfy `passEvOk` for kind `z` has no
writes of the other kind. -/
theorem countAt_other_kind (evs : List Ev) (size written : Nat) (z : Bool)
    (h : ∀ e ∈ evs, passEvOk size written z e) (z' : Bool) (hz : z' ≠ z)
    (i : Nat) : writeCountAt evs z' i = 0 := by
  simp only [writeCountAt]
  rw [List.countP_eq_zero]
  intro e he
  have := h e he
  cases e with
  | write o l zz =>
    obtain ⟨_, _, rfl⟩ := this
    simp only [coversAt, Bool.and_eq_true, beq_iff_eq]
    intro hc
    exact hz hc.1.1.symm
  | fillRandom n => simp [coversAt]
  | syncAttempt b => exact absurd this (by simp [passEvOk])
  | memsetZero => exact absurd this (by simp [passEvOk])

/-- A trace whose events all satisfy `passEvOk` has no checkpoint and no
buffer-clear events. -/
theorem passEv_no_sync_memset (evs : List Ev) (size written : Nat) (z : Bool)
    (h : ∀ e ∈ evs, passEvOk size written z e) :
    evs.countP isSyncEv = 0 ∧ evs.countP isMemsetEv = 0 := by
  constructor
  · rw [List.countP_eq_zero]
    intro e he
    have := h e he
    cases e <;> simp [isSyncEv] <;> simp [passEvOk] at this
  · rw [List.countP_eq_zero]
    intro e he
    have := h e he
    cases e <;> simp [isMemsetEv] <;> simp [passEvOk] at this

/-- Every event satisfying `passEvOk` stays within the original extent. -/
theorem passEvOk_within (size written : Nat) (z : Bool) (e : Ev)
    (h : passEvOk size written z e) : writeWithin size e := by
  cases e with
  | write o l zz => exact h.2.1
  | fillRandom n => trivial
  | syncAttempt b => trivial
  | memsetZero => trivial

/-- `passEvOk` is monotone in the starting offset. -/
theorem passEvOk_mono (size w w' : Nat) (z : Bool) (e : Ev) (hw : w ≤ w')
    (h : passEvOk size w' z e) : passEvOk size w z e := by
  cases e with
  | write o l zz => exact ⟨le_trans hw h.1, h.2.1, h.2.2⟩
  | fillRandom n => trivial
  | syncAttempt b => exact h
  | memsetZero => exact h

/-! ### passLoop: coverage of one pass -/

/-- The write loop of one pass produces only well-formed fill/write
events, and when it completes it writes every byte of `[written, size)`
exactly once and no byte outside it. -/
theorem passLoop_spec (size bufsize : Nat) (isZero : Bool) :
    ∀ (ws : List WStep) (fills : List Bool) (written : Nat) (r : LoopOut),
    passLoop size bufsize isZero fills ws written = some r →
    (∀ e ∈ r.evs, passEvOk size written isZero e) ∧
    (r.ok = true → ∀ i, writeCountAt r.evs isZero i =
      if written ≤ i ∧ i < size then 1 else 0) := by
  intro ws
  induction ws with
  | nil =>
    intro fills written r h
    simp only [passLoop] at h
    split at h
    · rename_i hsw
      injection h with h
      subst h
      refine ⟨by simp, fun _ i => ?_⟩
      simp only [writeCountAt, List.countP_nil]
      rw [if_neg (by omega)]
    · exact absurd h (by simp)
  | cons w ws ih =>
    intro fills written r h
    by_cases hsw : size ≤ written
    · simp only [passLoop, if_pos hsw] at h
      injection h with h
      subst h
      refine ⟨by simp, fun _ i => ?_⟩
      simp only [writeCountAt, List.countP_nil]
      rw [if_neg (by omega)]
    · have hwlt : written < size := by omega
      cases isZero with
      | false =>
        cases fills with
        | nil =>
          simp only [passLoop, if_neg hsw] at h
          exact absurd h (by simp)
        | cons fok fr =>
          cases fok with
          | false =>
            simp only [passLoop, if_neg hsw, Bool.false_eq_true, if_false] at h
            injection h with h
            subst h
            refine ⟨?_, by simp⟩
            intro e he
            simp only [List.mem_singleton] at he
            subst he
            trivial
          | true =>
            cases w with
            | eintr =>
              simp only [passLoop, if_neg hsw, if_true] at h
              match hrec : passLoop size bufsize false fr ws written with
              | none =>
                rw [hrec] at h
                exact absurd h (by simp)
              | some q =>
                rw [hrec] at h
                simp only [Option.map_some'] at h
                injection h with h
                subst h
                obtain ⟨h1, h2⟩ := ih fr written q hrec
                refine ⟨?_, ?_⟩
                · intro e he
                  simp only [List.mem_cons] at he
                  rcases he with rfl | he
                  · trivial
                  · exact h1 e he
                · intro hok i
                  rw [countAt_cons_fill]
                  exact h2 hok i
            | err =>
              simp only [passLoop, if_neg hsw, if_true] at h
              injection h with h
              subst h
              refine ⟨?_, by simp⟩
              intro e he
              simp only [List.mem_singleton] at he
              subst he
              trivial
            | ok n =>
              simp only [passLoop, if_neg hsw, if_true] at h
              match hrec : passLoop size bufsize false fr ws
                  (written + min n (min bufsize (size - written))) with
              | none =>
                rw [hrec] at h
                exact absurd h (by simp)
              | some q =>
                rw [hrec] at h
                simp only [Option.map_some'] at h
                injection h with h
                subst h
                obtain ⟨h1, h2⟩ := ih fr _ q hrec
                have hn' : min n (min bufsize (size - written)) ≤ size - written := by
                  omega
                refine ⟨?_, ?_⟩
                · intro e he
                  simp only [List.mem_cons] at he
                  rcases he with rfl | rfl | he
                  · trivial
                  · exact ⟨le_refl _, by omega, rfl⟩
                  · exact passEvOk_mono size written _ false e (by omega) (h1 e he)
                · intro hok i
                  rw [countAt_cons_fill, countAt_cons_write, h2 hok i]
                  by_cases hc1 : written ≤ i
                  · by_cases hc2 : i < written + min n (min bufsize (size - written))
                    · rw [if_neg (by omega), if_pos ⟨rfl, hc1, hc2⟩,
                        if_pos (by constructor; exact hc1; omega)]
                    · by_cases hc3 : i < size
                      · rw [if_pos (by omega), if_neg (by omega),
                          if_pos (by omega)]
                      · rw [if_neg (by omega), if_neg (by omega),
                          if_neg (by omega)]
                  · rw [if_neg (by omega), if_neg (by omega), if_neg (by omega)]
      | true =>
        cases w with
        | eintr =>
          simp only [passLoop, if_neg hsw] at h
          match hrec : passLoop size bufsize true fills ws written with
          | none =>
            rw [hrec] at h
            exact absurd h (by simp)
          | some q =>
            rw [hrec] at h
            simp only [Option.map_some'] at h
            injection h with h
            subst h
            exact ih fills written q hrec
        | err =>
          simp only [passLoop, if_neg hsw] at h
          injection h with h
          subst h
          exact ⟨by simp, by simp⟩
        | ok n =>
          simp only [passLoop, if_neg hsw] at h
          match hrec : passLoop size bufsize true fills ws
              (written + min n (min bufsize (size - written))) with
          | none =>
            rw [hrec] at h
            exact absurd h (by simp)
          | some q =>
            rw [hrec] at h
            simp only [Option.map_some'] at h
            injection h with h
            subst h
            obtain ⟨h1, h2⟩ := ih fills _ q hrec
            refine ⟨?_, ?_⟩
            · intro e he
              simp only [List.mem_cons] at he
              rcases he with rfl | he
              · exact ⟨le_refl _, by omega, rfl⟩
              · exact passEvOk_mono size written _ true e (by omega) (h1 e he)
            · intro hok i
              rw [countAt_cons_write, h2 hok i]
              by_cases hc1 : written ≤ i
              · by_cases hc2 : i < written + min n (min bufsize (size - written))
                · rw [if_neg (by omega), if_pos ⟨rfl, hc1, hc2⟩,
                    if_pos (by constructor; exact hc1; omega)]
                · by_cases hc3 : i < size
                  · rw [if_pos (by omega), if_neg (by omega), if_pos (by omega)]
                  · rw [if_neg (by omega), if_neg (by omega), if_neg (by omega)]
              · rw [if_neg (by omega), if_neg (by omega), if_neg (by omega)]

/-! ### onePass and passesLoop -/

/-- On a zero-length file the write loop exits immediately: no oracle
consumed, no events, success. -/
theorem passLoop_size_zero (bufsize : Nat) (z : Bool) (fills : List Bool)
    (ws : List WStep) (written : Nat) :
    passLoop 0 bufsize z fills ws written = some ⟨fills, ws, [], true⟩ := by
  cases ws <;> simp [passLoop]

/-- One pass over a zero-length file: consume one (successful) lseek and
one checkpoint, write nothing. -/
theorem onePass_size_zero (bufsize : Nat) (z : Bool) (st : PassState)
    (lr : List Bool) (s : Bool × Bool) (sr : List (Bool × Bool))
    (hls : st.lseeks = true :: lr) (hsy : st.syncs = s :: sr) :
    onePass 0 bufsize z st = some ⟨⟨st.fills, st.writes, lr, sr⟩,
      (if z then [Ev.memsetZero] else []) ++
        [Ev.syncAttempt (decide (sync_and_check s = 0))], true⟩ := by
  unfold onePass
  simp only [hls, hsy, passLoop_size_zero, Bool.not_true, Bool.false_eq_true,
    if_false, List.append_nil]
  simp

/-- A completed pass writes every byte of the extent exactly once with
its own data kind and none with the other kind, issues exactly one
checkpoint, clears the buffer once iff it is the zero pass, and stays
within the extent. -/
theorem onePass_spec (size bufsize : Nat) (isZero : Bool) (st : PassState)
    (r : PassOut) (h : onePass size bufsize isZero st = some r)
    (hok : r.ok = true) :
    (∀ i, writeCountAt r.evs isZero i = if i < size then 1 else 0) ∧
    (∀ i (z : Bool), z ≠ isZero → writeCountAt r.evs z i = 0) ∧
    r.evs.countP isSyncEv = 1 ∧
    r.evs.countP isMemsetEv = (if isZero then 1 else 0) ∧
    (∀ e ∈ r.evs, writeWithin size e) := by
  unfold onePass at h
  match hls : st.lseeks with
  | [] =>
    rw [hls] at h
    exact absurd h (by simp)
  | lok :: lr =>
    simp only [hls] at h
    cases lok with
    | false =>
      simp only [Bool.not_false, if_true] at h
      injection h with h
      rw [← h] at hok
      exact absurd hok (by simp)
    | true =>
      simp only [Bool.not_true, Bool.false_eq_true, if_false] at h
      match hpl : passLoop size bufsize isZero st.fills st.writes 0 with
      | none =>
        rw [hpl] at h
        exact absurd h (by simp)
      | some q =>
        simp only [hpl] at h
        obtain ⟨hq1, hq2⟩ := passLoop_spec size bufsize isZero st.writes
          st.fills 0 q hpl
        cases hqok : q.ok with
        | false =>
          simp only [hqok, Bool.false_eq_true, if_false] at h
          injection h with h
          rw [← h] at hok
          exact absurd hok (by simp)
        | true =>
          simp only [hqok, if_true] at h
          match hsy : st.syncs with
          | [] =>
            rw [hsy] at h
            exact absurd h (by simp)
          | s :: sr =>
            simp only [hsy] at h
            injection h with h
            subst h
            have hcnt := hq2 hqok
            have hnosm := passEv_no_sync_memset q.evs size 0 isZero hq1
            refine ⟨?_, ?_, ?_, ?_, ?_⟩
            · intro i
              rw [countAt_append, countAt_append, countAt_cons_sync]
              have : writeCountAt [] isZero i = 0 := by
                simp [writeCountAt]
              rw [this, hcnt i]
              cases isZero <;>
                simp [writeCountAt, List.countP_cons, coversAt,
                  List.countP_nil] <;>
                split <;> omega
            · intro i z hz
              rw [countAt_append, countAt_append, countAt_cons_sync]
              have h0 : writeCountAt [] z i = 0 := by simp [writeCountAt]
              rw [h0, countAt_other_kind q.evs size 0 isZero hq1 z hz i]
              cases isZero <;> simp [writeCountAt, List.countP_cons,
                List.countP_nil, coversAt]
            · rw [List.countP_append, List.countP_append, hnosm.1]
              cases isZero <;> simp [isSyncEv]
            · rw [List.countP_append, List.countP_append, hnosm.2]
              cases isZero <;> simp [isMemsetEv]
            · intro e he
              simp only [List.mem_append, List.mem_cons, List.mem_singleton] at he
              rcases he with (he | he) | he
              · cases isZero with
                | false => simp at he
                | true =>
                  simp only [if_true, List.mem_singleton] at he
                  subst he
                  trivial
              · exact passEvOk_within size 0 isZero e (hq1 e he)
              · rcases he with he | he
                · subst he
                  trivial
                · simp at he

/-- All `n` random passes completed: every byte of the extent has been
written exactly `n` times with random data, none with zeros, `n`
checkpoints were issued, the buffer was never cleared, and every write
stays within the extent. -/
theorem passesLoop_spec (size bufsize : Nat) :
    ∀ (n : Nat) (st st' : PassState) (evs : List Ev),
    passesLoop size bufsize n st = some (st', evs, true) →
    (∀ i, writeCountAt evs false i = if i < size then n else 0) ∧
    (∀ i, writeCountAt evs true i = 0) ∧
    evs.countP isSyncEv = n ∧
    evs.countP isMemsetEv = 0 ∧
    (∀ e ∈ evs, writeWithin size e) := by
  intro n
  induction n with
  | zero =>
    intro st st' evs h
    simp only [passesLoop, Option.some.injEq, Prod.mk.injEq] at h
    obtain ⟨-, rfl, -⟩ := h
    refine ⟨?_, ?_, by simp, by simp, by simp⟩
    · intro i
      simp only [writeCountAt, List.countP_nil]
      split <;> rfl
    · intro i
      simp [writeCountAt]
  | succ n ih =>
    intro st st' evs h
    simp only [passesLoop] at h
    match hop : onePass size bufsize false st with
    | none =>
      rw [hop] at h
      exact absurd h (by simp)
    | some r =>
      simp only [hop] at h
      cases hro : r.ok with
      | false =>
        simp only [hro, Bool.false_eq_true, if_false, Option.some.injEq,
          Prod.mk.injEq] at h
        exact absurd h.2.2 (by simp)
      | true =>
        simp only [hro, if_true] at h
        match hrec : passesLoop size bufsize n r.st with
        | none =>
          rw [hrec] at h
          exact absurd h (by simp)
        | some (st2, evs2, ok2) =>
          simp only [hrec, Option.map_some', Option.some.injEq,
            Prod.mk.injEq] at h
          obtain ⟨-, rfl, hok2⟩ := h
          subst hok2
          obtain ⟨hc1, hc2, hs1, hm1, hw1⟩ :=
            onePass_spec size bufsize false st r hop hro
          obtain ⟨hc1', hc2', hs1', hm1', hw1'⟩ :=
            ih r.st st2 evs2 hrec
          refine ⟨?_, ?_, ?_, ?_, ?_⟩
          · intro i
            rw [countAt_append, hc1 i, hc1' i]
            split <;> omega
          · intro i
            rw [countAt_append, hc2 i true (by simp), hc2' i]
          · rw [List.countP_append, hs1, hs1']
            omega
          · rw [List.countP_append, hm1, hm1']
            simp
          · intro e he
            rcases List.mem_append.mp he with he | he
            · exact hw1 e he
            · exact hw1' e he

/-! ### C4: every byte written exactly N times (plus one zero write) -/

/-- C4: when `overwrite_file` succeeds on a regular file of length `L`
with `N ≥ 1` passes, every byte offset of the original extent has been
written exactly `N` times with random data, plus exactly one zero write
when the final-zero-pass option is set, and the zero buffer was cleared
exactly once (not per chunk) in that case. -/
theorem overwrite_each_byte_N_times (L passes : Nat) (fz : Bool)
    (env : OvEnv) (r : OvResult) (hN : 1 ≤ passes)
    (h : overwrite_file (FObj.reg L) passes fz env = some r)
    (hret : r.ret = 0) :
    (∀ i, i < L → writeCountAt r.evs false i = passes ∧
      writeCountAt r.evs true i = (if fz then 1 else 0)) ∧
    r.evs.countP isMemsetEv = (if fz then 1 else 0) := by
  unfold overwrite_file at h
  simp only [statResolve, S_ISREG, Bool.not_true, Bool.false_eq_true,
    if_false, regSize] at h
  cases hoo : env.openOk with
  | false =>
    simp only [hoo, Bool.not_false, if_true] at h
    injection h with h
    rw [← h] at hret
    exact absurd hret (by simp)
  | true =>
    simp only [hoo, Bool.not_true, Bool.false_eq_true, if_false] at h
    match hpl : passesLoop L (bufsizeOf L) passes
        ⟨env.fills, env.writes, env.lseeks, env.syncs⟩ with
    | none =>
      rw [hpl] at h
      exact absurd h (by simp)
    | some (st, evs, ok) =>
      simp only [hpl] at h
      cases hko : ok with
      | false =>
        simp only [hko, Bool.not_false, if_true] at h
        injection h with h
        rw [← h] at hret
        exact absurd hret (by simp)
      | true =>
        simp only [hko, Bool.not_true, Bool.false_eq_true, if_false] at h
        subst hko
        obtain ⟨hc1, hc2, hs1, hm1, hw1⟩ :=
          passesLoop_spec L (bufsizeOf L) passes _ st evs hpl
        cases fz with
        | false =>
          simp only [Bool.false_eq_true, if_false] at h ⊢
          injection h with h
          subst h
          refine ⟨fun i hi => ⟨?_, hc2 i⟩, hm1⟩
          rw [hc1 i, if_pos hi]
        | true =>
          simp only [if_true] at h ⊢
          match hop : onePass L (bufsizeOf L) true st with
          | none =>
            rw [hop] at h
            exact absurd h (by simp)
          | some pr =>
            simp only [hop] at h
            injection h with h
            subst h
            simp only [OvResult.ret] at hret
            cases hpo : pr.ok with
            | false =>
              rw [hpo] at hret
              exact absurd hret (by simp)
            | true =>
              obtain ⟨hz1, hz2, hzs, hzm, hzw⟩ :=
                onePass_spec L (bufsizeOf L) true st pr hop hpo
              refine ⟨fun i hi => ⟨?_, ?_⟩, ?_⟩
              · rw [OvResult.evs, countAt_append, hc1 i, if_pos hi,
                  hz2 i false (by simp)]
                omega
              · rw [OvResult.evs, countAt_append, hc2 i, hz1 i, if_pos hi]
              · rw [OvResult.evs, List.countP_append, hm1, hzm, if_pos rfl]

/-! ### C10: frame — writes stay in the original extent -/

/-- The trace length-fold never shrinks below its accumulator. -/
theorem lengthAfter_ge (evs : List Ev) :
    ∀ acc : Nat, acc ≤ List.foldl (fun acc e => match e with
      | Ev.write o l _ => max acc (o + l)
      | _ => acc) acc evs := by
  induction evs with
  | nil => intro acc; exact le_refl _
  | cons e t ih =>
    intro acc
    refine le_trans ?_ (ih _)
    cases e with
    | write o l z => exact le_max_left _ _
    | fillRandom n => exact le_refl _
    | syncAttempt b => exact le_refl _
    | memsetZero => exact le_refl _

/-- If every write stays within `L`, the length-fold never exceeds `L`. -/
theorem lengthAfter_le (L : Nat) (evs : List Ev) :
    ∀ acc : Nat, (∀ e ∈ evs, writeWithin L e) → acc ≤ L →
    List.foldl (fun acc e => match e with
      | Ev.write o l _ => max acc (o + l)
      | _ => acc) acc evs ≤ L := by
  induction evs with
  | nil => intro acc _ hacc; exact hacc
  | cons e t ih =>
    intro acc hall hacc
    refine ih _ (fun e' he' => hall e' (List.mem_cons_of_mem _ he')) ?_
    have he := hall e (List.mem_cons_self _ _)
    cases e with
    | write o l z => exact max_le hacc he
    | fillRandom n => exact hacc
    | syncAttempt b => exact hacc
    | memsetZero => exact hacc

/-- A trace of in-extent writes leaves the file length unchanged. -/
theorem lengthAfter_of_within (L : Nat) (evs : List Ev)
    (h : ∀ e ∈ evs, writeWithin L e) : lengthAfter L evs = L :=
  Nat.le_antisymm (lengthAfter_le L evs L h (le_refl _)) (lengthAfter_ge evs L)

/-- C10: when `overwrite_file` succeeds on a regular file of length `L`,
every write lies within the original extent `[0, L)` (final chunks are
clamped) and the file length after replaying the trace is still `L` —
the file was opened without truncation and never extended. -/
theorem overwrite_preserves_length (L passes : Nat) (fz : Bool)
    (env : OvEnv) (r : OvResult)
    (h : overwrite_file (FObj.reg L) passes fz env = some r)
    (hret : r.ret = 0) :
    (∀ e ∈ r.evs, writeWithin L e) ∧ lengthAfter L r.evs = L := by
  unfold overwrite_file at h
  simp only [statResolve, S_ISREG, Bool.not_true, Bool.false_eq_true,
    if_false, regSize] at h
  cases hoo : env.openOk with
  | false =>
    simp only [hoo, Bool.not_false, if_true] at h
    injection h with h
    rw [← h] at hret
    exact absurd hret (by simp)
  | true =>
    simp only [hoo, Bool.not_true, Bool.false_eq_true, if_false] at h
    match hpl : passesLoop L (bufsizeOf L) passes
        ⟨env.fills, env.writes, env.lseeks, env.syncs⟩ with
    | none =>
      rw [hpl] at h
      exact absurd h (by simp)
    | some (st, evs, ok) =>
      simp only [hpl] at h
      cases hko : ok with
      | false =>
        simp only [hko, Bool.not_false, if_true] at h
        injection h with h
        rw [← h] at hret
        exact absurd hret (by simp)
      | true =>
        simp only [hko, Bool.not_true, Bool.false_eq_true, if_false] at h
        subst hko
        obtain ⟨-, -, -, -, hw1⟩ :=
          passesLoop_spec L (bufsizeOf L) passes _ st evs hpl
        cases fz with
        | false =>
          simp only [Bool.false_eq_true, if_false] at h
          injection h with h
          subst h
          exact ⟨hw1, lengthAfter_of_within L evs hw1⟩
        | true =>
          simp only [if_true] at h
          match hop : onePass L (bufsizeOf L) true st with
          | none =>
            rw [hop] at h
            exact absurd h (by simp)
          | some pr =>
            simp only [hop] at h
            injection h with h
            subst h
            simp only [OvResult.ret] at hret
            cases hpo : pr.ok with
            | false =>
              rw [hpo] at hret
              exact absurd hret (by simp)
            | true =>
              obtain ⟨-, -, -, -, hzw⟩ :=
                onePass_spec L (bufsizeOf L) true st pr hop hpo
              have hall : ∀ e ∈ evs ++ pr.evs, writeWithin L e := by
                intro e he
                rcases List.mem_append.mp he with he | he
                · exact hw1 e he
                · exact hzw e he
              exact ⟨hall, lengthAfter_of_within L _ hall⟩

/-- Witness for `overwrite_each_byte_N_times`: one random pass plus the
zero pass on a concrete 2-byte file. -/
theorem overwrite_each_byte_N_times_witness :
    writeCountAt [Ev.fillRandom 2, Ev.write 0 2 false, Ev.syncAttempt true,
      Ev.memsetZero, Ev.write 0 2 true, Ev.syncAttempt true] false 0 = 1 ∧
    writeCountAt [Ev.fillRandom 2, Ev.write 0 2 false, Ev.syncAttempt true,
      Ev.memsetZero, Ev.write 0 2 true, Ev.syncAttempt true] true 0 =
      (if (true : Bool) then 1 else 0) :=
  (overwrite_each_byte_N_times 2 1 true
    ⟨true, [true], [WStep.ok 2, WStep.ok 2], [true, true],
      [(true, true), (true, true)]⟩
    ⟨[Ev.fillRandom 2, Ev.write 0 2 false, Ev.syncAttempt true,
      Ev.memsetZero, Ev.write 0 2 true, Ev.syncAttempt true], 0, true⟩
    (by decide) (by decide) (by decide)).1 0 (by decide)

/-- Witness for `overwrite_preserves_length`: a single pass on a concrete
1-byte file stays within the extent. -/
theorem overwrite_preserves_length_witness :
    (∀ e ∈ [Ev.fillRandom 1, Ev.write 0 1 false, Ev.syncAttempt true],
      writeWithin 1 e) ∧
    lengthAfter 1 [Ev.fillRandom 1, Ev.write 0 1 false, Ev.syncAttempt true] = 1 :=
  overwrite_preserves_length 1 1 false
    ⟨true, [true], [WStep.ok 1], [true], [(true, true)]⟩
    ⟨[Ev.fillRandom 1, Ev.write 0 1 false, Ev.syncAttempt true], 0, true⟩
    (by decide) (by decide)

/-! ### C9: zero-length files -/

/-- Over a zero-length file, `n` random passes succeed while consuming no
write or fill oracle at all, drop exactly `n` lseek and `n` checkpoint
entries, and record exactly `n` checkpoints and nothing else. -/
theorem passesLoop_size_zero (bufsize : Nat) :
    ∀ (n : Nat) (st : PassState),
    (∀ b ∈ st.lseeks, b = true) → n ≤ st.lseeks.length →
    n ≤ st.syncs.length →
    ∃ st' evs, passesLoop 0 bufsize n st = some (st', evs, true) ∧
      st'.fills = st.fills ∧ st'.writes = st.writes ∧
      st'.lseeks = st.lseeks.drop n ∧ st'.syncs = st.syncs.drop n ∧
      (∀ b ∈ st'.lseeks, b = true) ∧
      evs.countP isWriteEv = 0 ∧ evs.countP isFillEv = 0 ∧
      evs.countP isSyncEv = n ∧ evs.countP isMemsetEv = 0 := by
  intro n
  induction n with
  | zero =>
    intro st hall _ _
    exact ⟨st, [], by simp [passesLoop], rfl, rfl, by simp, by simp, hall,
      by simp, by simp, by simp, by simp⟩
  | succ n ih =>
    intro st hall h1 h2
    match hls : st.lseeks with
    | [] =>
      rw [hls] at h1
      simp at h1
    | lok :: lr =>
      have hlok : lok = true := hall lok (by rw [hls]; exact List.mem_cons_self _ _)
      subst hlok
      match hsy : st.syncs with
      | [] =>
        rw [hsy] at h2
        simp at h2
      | s :: sr =>
        have hop := onePass_size_zero bufsize false st lr s sr hls hsy
        have hall' : ∀ b ∈ lr, b = true := fun b hb =>
          hall b (by rw [hls]; exact List.mem_cons_of_mem _ hb)
        have h1' : n ≤ lr.length := by
          rw [hls] at h1
          simpa using h1
        have h2' : n ≤ sr.length := by
          rw [hsy] at h2
          simpa using h2
        obtain ⟨st', evs2, hrec, hf, hw, hl', hs', hall'', cw, cf, cs, cm⟩ :=
          ih ⟨st.fills, st.writes, lr, sr⟩ hall' h1' h2'
        refine ⟨st', Ev.syncAttempt (decide (sync_and_check s = 0)) :: evs2,
          ?_, by simpa using hf, by simpa using hw, ?_, ?_, hall'', ?_, ?_, ?_, ?_⟩
        · simp only [passesLoop, hop, PassOut.ok, if_true, PassOut.st, PassOut.evs,
            hrec, Option.map_some', Bool.false_eq_true, if_false,
            List.nil_append, List.singleton_append]
        · rw [hl']
          simp [List.drop_succ_cons]
        · rw [hs']
          simp [List.drop_succ_cons]
        · simp [List.countP_cons, isWriteEv, cw]
        · simp [List.countP_cons, isFillEv, cf]
        · simp [List.countP_cons, isSyncEv, cs]
        · simp [List.countP_cons, isMemsetEv, cm]

/-- C9: on a zero-length regular file, `overwrite_file` succeeds while
performing no write and consuming no randomness, yet still issues exactly
`N` durability checkpoints, plus one more when the final-zero-pass option
is set. -/
theorem overwrite_zero_length_only_syncs (passes : Nat) (fz : Bool)
    (env : OvEnv) (hN : 1 ≤ passes) (hopen : env.openOk = true)
    (hall : ∀ b ∈ env.lseeks, b = true)
    (hl : passes + (if fz then 1 else 0) ≤ env.lseeks.length)
    (hs : passes + (if fz then 1 else 0) ≤ env.syncs.length) :
    ∃ r, overwrite_file (FObj.reg 0) passes fz env = some r ∧ r.ret = 0 ∧
      r.evs.countP isWriteEv = 0 ∧ r.evs.countP isFillEv = 0 ∧
      r.evs.countP isSyncEv = passes + (if fz then 1 else 0) := by
  obtain ⟨st', evs, hrec, hf, hw, hl', hs', hall', cw, cf, cs, cm⟩ :=
    passesLoop_size_zero (bufsizeOf 0) passes
      ⟨env.fills, env.writes, env.lseeks, env.syncs⟩
      hall (le_trans (by omega) hl) (le_trans (by omega) hs)
  cases fz with
  | false =>
    refine ⟨⟨evs, 0, true⟩, ?_, rfl, cw, cf, by simpa using cs⟩
    unfold overwrite_file
    simp only [statResolve, S_ISREG, Bool.not_true, Bool.false_eq_true,
      if_false, regSize, hopen, hrec, Bool.not_false, if_true]
  | true =>
    have hl2 : passes + 1 ≤ env.lseeks.length := by simpa using hl
    have hs2 : passes + 1 ≤ env.syncs.length := by simpa using hs
    have hld : st'.lseeks = List.drop passes env.lseeks := hl'
    have hsd : st'.syncs = List.drop passes env.syncs := hs'
    have hlen1 : 1 ≤ st'.lseeks.length := by
      rw [hld, List.length_drop]
      omega
    have hlen2 : 1 ≤ st'.syncs.length := by
      rw [hsd, List.length_drop]
      omega
    match hls2 : st'.lseeks with
    | [] =>
      rw [hls2] at hlen1
      simp at hlen1
    | lok2 :: lr2 =>
      have hlok2 : lok2 = true := hall' lok2 (by
        rw [hls2]; exact List.mem_cons_self _ _)
      subst hlok2
      match hsy2 : st'.syncs with
      | [] =>
        rw [hsy2] at hlen2
        simp at hlen2
      | s2 :: sr2 =>
        have hop := onePass_size_zero (bufsizeOf 0) true st' lr2 s2 sr2 hls2 hsy2
        refine ⟨⟨evs ++ [Ev.memsetZero,
          Ev.syncAttempt (decide (sync_and_check s2 = 0))], 0, true⟩,
          ?_, rfl, ?_, ?_, ?_⟩
        · unfold overwrite_file
          simp only [statResolve, S_ISREG, Bool.not_true, Bool.false_eq_true,
            if_false, regSize, hopen, hrec, Bool.not_false, if_true, hop,
            PassOut.ok, PassOut.evs, Option.some.injEq]
          simp
        · simp only [OvResult.evs]
          rw [List.countP_append, cw]
          simp [isWriteEv]
        · simp only [OvResult.evs]
          rw [List.countP_append, cf]
          simp [isFillEv]
        · simp only [OvResult.evs]
          rw [List.countP_append, cs]
          simp [isSyncEv]

/-- Witness for `overwrite_zero_length_only_syncs` on a concrete
zero-length file with one pass and no zero pass. -/
theorem overwrite_zero_length_only_syncs_witness :
    ∃ r, overwrite_file (FObj.reg 0) 1 false
        ⟨true, [], [], [true], [(true, true)]⟩ = some r ∧ r.ret = 0 ∧
      r.evs.countP isWriteEv = 0 ∧ r.evs.countP isFillEv = 0 ∧
      r.evs.countP isSyncEv = 1 + (if (false : Bool) then 1 else 0) :=
  overwrite_zero_length_only_syncs 1 false
    ⟨true, [], [], [true], [(true, true)]⟩
    (by decide) (by decide) (by decide) (by decide) (by decide)

/-! ### C2: non-regular targets (corrected) -/

/-- C2 (amended): `overwrite_file` rejects — with no open, no event, no
modification — every target whose `stat` resolution is not a regular
file: directories, devices, FIFOs, sockets, dangling symlinks, and
symlinks to any of those.  (A symlink to a *regular* file, however, is
followed, because the check uses `stat`.) -/
theorem overwrite_rejects_nonregular_after_resolve (obj : FObj)
    (passes : Nat) (fz : Bool) (env : OvEnv)
    (h : ∀ o, statResolve obj = some o → S_ISREG o = false) :
    overwrite_file obj passes fz env = some ⟨[], -1, false⟩ := by
  unfold overwrite_file
  match hso : statResolve obj with
  | none => rfl
  | some o =>
    have hreg := h o hso
    simp [hreg]

/-- Witness for `overwrite_rejects_nonregular_after_resolve`: a directory
is rejected without any action. -/
theorem overwrite_rejects_nonregular_witness :
    overwrite_file FObj.dir 3 true
      ⟨true, [true], [WStep.ok 1], [true], [(true, true)]⟩ =
      some ⟨[], -1, false⟩ :=
  overwrite_rejects_nonregular_after_resolve FObj.dir 3 true
    ⟨true, [true], [WStep.ok 1], [true], [(true, true)]⟩
    (fun o ho => by
      simp only [statResolve, Option.some.injEq] at ho
      subst ho
      rfl)

/-- C2 counterexample: a symlink to a regular file is *not* rejected:
`stat` follows the link, the check passes, the file is opened and its
referent overwritten — `overwrite_file` returns success with a write
trace, although the path itself names a symlink, a non-regular file. -/
theorem overwrite_follows_symlink_counterexample :
    overwrite_file (FObj.symlink (FObj.reg 1)) 1 false
        ⟨true, [true], [WStep.ok 1], [true], [(true, true)]⟩ =
      some ⟨[Ev.fillRandom 1, Ev.write 0 1 false, Ev.syncAttempt true],
        0, true⟩ ∧
    S_ISREG (FObj.symlink (FObj.reg 1)) = false := by
  constructor <;> decide

/-! ### C6: checkpoint failures are non-fatal -/

/-- One pass behaves identically — same completion flag, same oracle
consumption, same trace up to the recorded checkpoint outcome — under any
two checkpoint oracles of equal length. -/
theorem onePass_syncs_indep (size bufsize : Nat) (isZero : Bool)
    (f : List Bool) (w : List WStep) (l : List Bool)
    (s1 s2 : List (Bool × Bool)) (hlen : s1.length = s2.length) :
    (onePass size bufsize isZero ⟨f, w, l, s1⟩).map normPassOut =
      (onePass size bufsize isZero ⟨f, w, l, s2⟩).map normPassOut := by
  unfold onePass
  cases l with
  | nil => rfl
  | cons lok lr =>
    cases lok with
    | false =>
      simp [normPassOut, normSt, hlen]
    | true =>
      simp only [Bool.not_true, Bool.false_eq_true, if_false]
      match hpl : passLoop size bufsize isZero f w 0 with
      | none => simp
      | some q =>
        simp only
        cases hq : q.ok with
        | false =>
          simp [hq, normPassOut, normSt, hlen]
        | true =>
          simp only [hq, if_true]
          cases s1 with
          | nil =>
            cases s2 with
            | nil => rfl
            | cons b bs => simp at hlen
          | cons a as =>
            cases s2 with
            | nil => simp at hlen
            | cons b bs =>
              have hlen' : as.length = bs.length := by simpa using hlen
              simp [normPassOut, normSt, hlen', stripSync, List.map_append]

/-- The whole pass loop behaves identically under any two checkpoint
oracles of equal length. -/
theorem passesLoop_syncs_indep (size bufsize : Nat) :
    ∀ (n : Nat) (f : List Bool) (w : List WStep) (l : List Bool)
      (s1 s2 : List (Bool × Bool)), s1.length = s2.length →
    (passesLoop size bufsize n ⟨f, w, l, s1⟩).map normPasses =
      (passesLoop size bufsize n ⟨f, w, l, s2⟩).map normPasses := by
  intro n
  induction n with
  | zero =>
    intro f w l s1 s2 hlen
    simp [passesLoop, normPasses, normSt, hlen]
  | succ n ih =>
    intro f w l s1 s2 hlen
    simp only [passesLoop]
    have hone := onePass_syncs_indep size bufsize false f w l s1 s2 hlen
    cases hop1 : onePass size bufsize false ⟨f, w, l, s1⟩ with
    | none =>
      cases hop2 : onePass size bufsize false ⟨f, w, l, s2⟩ with
      | none => rfl
      | some r2 =>
        rw [hop1, hop2] at hone
        simp at hone
    | some r1 =>
      cases hop2 : onePass size bufsize false ⟨f, w, l, s2⟩ with
      | none =>
        rw [hop1, hop2] at hone
        simp at hone
      | some r2 =>
        rw [hop1, hop2] at hone
        simp only [Option.map_some', Option.some.injEq] at hone
        have hok : r1.ok = r2.ok := congrArg (fun x => x.2.2) hone
        have hevs : r1.evs.map stripSync = r2.evs.map stripSync :=
          congrArg (fun x => x.2.1) hone
        have hfs : r1.st.fills = r2.st.fills :=
          congrArg (fun x => x.1.1) hone
        have hws : r1.st.writes = r2.st.writes :=
          congrArg (fun x => x.1.2.1) hone
        have hls : r1.st.lseeks = r2.st.lseeks :=
          congrArg (fun x => x.1.2.2.1) hone
        have hsl : r1.st.syncs.length = r2.st.syncs.length :=
          congrArg (fun x => x.1.2.2.2) hone
        cases hro : r1.ok with
        | false =>
          have hro2 : r2.ok = false := by rw [← hok]; exact hro
          simp only [hro, hro2, Bool.false_eq_true, if_false,
            Option.map_some']
          simp [normPasses, normSt, hfs, hws, hls, hsl, hevs]
        | true =>
          have hro2 : r2.ok = true := by rw [← hok]; exact hro
          simp only [hro, hro2, if_true]
          have hihx := ih r1.st.fills r1.st.writes r1.st.lseeks
            r1.st.syncs r2.st.syncs hsl
          have e1 : (⟨r1.st.fills, r1.st.writes, r1.st.lseeks,
              r1.st.syncs⟩ : PassState) = r1.st := rfl
          have e2 : (⟨r1.st.fills, r1.st.writes, r1.st.lseeks,
              r2.st.syncs⟩ : PassState) = r2.st := by
            rw [hfs, hws, hls]
          rw [e1, e2] at hihx
          cases hq1 : passesLoop size bufsize n r1.st with
          | none =>
            cases hq2 : passesLoop size bufsize n r2.st with
            | none => rfl
            | some q2 =>
              rw [hq1, hq2] at hihx
              simp at hihx
          | some q1 =>
            cases hq2 : passesLoop size bufsize n r2.st with
            | none =>
              rw [hq1, hq2] at hihx
              simp at hihx
            | some q2 =>
              rw [hq1, hq2] at hihx
              simp only [Option.map_some', Option.some.injEq] at hihx
              have hq1st : normSt q1.1 = normSt q2.1 :=
                congrArg (fun x => x.1) hihx
              have hq1evs : q1.2.1.map stripSync = q2.2.1.map stripSync :=
                congrArg (fun x => x.2.1) hihx
              have hq1ok : q1.2.2 = q2.2.2 :=
                congrArg (fun x => x.2.2) hihx
              simp only [Option.map_some', normPasses, List.map_append]
              rw [hq1st, hq1evs, hq1ok, hevs]

/-- C6: the result of `overwrite_file` — return value, whether the file
was opened, and the whole action trace up to recorded checkpoint
outcomes — does not depend on the outcomes of the durability
checkpoints: a failed `sync_and_check` (which happens exactly when both
the `fdatasync` and the fallback `fsync` fail) is only warned about and
never causes failure or aborts the remaining passes. -/
theorem checkpoint_failure_never_aborts (obj : FObj) (passes : Nat)
    (fz : Bool) (env : OvEnv) (s' : List (Bool × Bool))
    (hlen : s'.length = env.syncs.length) :
    ((overwrite_file obj passes fz { env with syncs := s' }).map normOv =
      (overwrite_file obj passes fz env).map normOv) ∧
    (∀ a b : Bool, sync_and_check (a, b) = 0 ↔ (a = true ∨ b = true)) := by
  constructor
  · unfold overwrite_file
    match hso : statResolve obj with
    | none => rfl
    | some o =>
      simp only
      cases hreg : S_ISREG o with
      | false => simp [hreg]
      | true =>
        simp only [hreg, Bool.not_true, Bool.false_eq_true, if_false]
        cases hoo : env.openOk with
        | false => simp
        | true =>
          simp only [Bool.not_true, Bool.false_eq_true, if_false]
          have hmain := passesLoop_syncs_indep (regSize o)
            (bufsizeOf (regSize o)) passes env.fills env.writes env.lseeks
            s' env.syncs hlen
          cases hq1 : passesLoop (regSize o) (bufsizeOf (regSize o)) passes
              ⟨env.fills, env.writes, env.lseeks, s'⟩ with
          | none =>
            cases hq2 : passesLoop (regSize o) (bufsizeOf (regSize o)) passes
                ⟨env.fills, env.writes, env.lseeks, env.syncs⟩ with
            | none => rfl
            | some q2 =>
              rw [hq1, hq2] at hmain
              simp at hmain
          | some q1 =>
            cases hq2 : passesLoop (regSize o) (bufsizeOf (regSize o)) passes
                ⟨env.fills, env.writes, env.lseeks, env.syncs⟩ with
            | none =>
              rw [hq1, hq2] at hmain
              simp at hmain
            | some q2 =>
              rw [hq1, hq2] at hmain
              simp only [Option.map_some', Option.some.injEq] at hmain
              obtain ⟨st1, evs1, ok1⟩ := q1
              obtain ⟨st2, evs2, ok2⟩ := q2
              have hst : normSt st1 = normSt st2 :=
                congrArg (fun x => x.1) hmain
              have hevs : evs1.map stripSync = evs2.map stripSync :=
                congrArg (fun x => x.2.1) hmain
              have hoks : ok1 = ok2 :=
                congrArg (fun x => x.2.2) hmain
              subst hoks
              cases hko : ok1 with
              | false =>
                simp only [Bool.not_false, if_true, Option.map_some',
                  normOv]
                rw [hevs]
              | true =>
                simp only [Bool.not_true, Bool.false_eq_true, if_false]
                cases fz with
                | false =>
                  simp only [Bool.false_eq_true, if_false,
                    Option.map_some', normOv]
                  rw [hevs]
                | true =>
                  simp only [if_true]
                  have hf12 : st1.fills = st2.fills :=
                    congrArg (fun x => x.1) hst
                  have hw12 : st1.writes = st2.writes :=
                    congrArg (fun x => x.2.1) hst
                  have hl12 : st1.lseeks = st2.lseeks :=
                    congrArg (fun x => x.2.2.1) hst
                  have hs12 : st1.syncs.length = st2.syncs.length :=
                    congrArg (fun x => x.2.2.2) hst
                  have hzero := onePass_syncs_indep (regSize o)
                    (bufsizeOf (regSize o)) true st1.fills st1.writes
                    st1.lseeks st1.syncs st2.syncs hs12
                  have e1 : (⟨st1.fills, st1.writes, st1.lseeks,
                      st1.syncs⟩ : PassState) = st1 := rfl
                  have e2 : (⟨st1.fills, st1.writes, st1.lseeks,
                      st2.syncs⟩ : PassState) = st2 := by
                    rw [hf12, hw12, hl12]
                  rw [e1, e2] at hzero
                  cases hz1 : onePass (regSize o) (bufsizeOf (regSize o))
                      true st1 with
                  | none =>
                    cases hz2 : onePass (regSize o) (bufsizeOf (regSize o))
                        true st2 with
                    | none => rfl
                    | some p2 =>
                      rw [hz1, hz2] at hzero
                      simp at hzero
                  | some p1 =>
                    cases hz2 : onePass (regSize o) (bufsizeOf (regSize o))
                        true st2 with
                    | none =>
                      rw [hz1, hz2] at hzero
                      simp at hzero
                    | some p2 =>
                      rw [hz1, hz2] at hzero
                      simp only [Option.map_some', Option.some.injEq] at hzero
                      have hpo : p1.ok = p2.ok :=
                        congrArg (fun x => x.2.2) hzero
                      have hpevs : p1.evs.map stripSync =
                          p2.evs.map stripSync :=
                        congrArg (fun x => x.2.1) hzero
                      simp only [Option.map_some', normOv,
                        List.map_append]
                      rw [hevs, hpevs, hpo]
  · intro a b
    cases a <;> cases b <;> simp [sync_and_check]

/-- Witness for `checkpoint_failure_never_aborts`: a run whose only
checkpoint fails both flush calls produces the same (normalised) result
as one whose checkpoint succeeds. -/
theorem checkpoint_failure_never_aborts_witness :
    (overwrite_file (FObj.reg 1) 1 false
        ⟨true, [true], [WStep.ok 1], [true], [(false, false)]⟩).map normOv =
      (overwrite_file (FObj.reg 1) 1 false
        ⟨true, [true], [WStep.ok 1], [true], [(true, true)]⟩).map normOv :=
  (checkpoint_failure_never_aborts (FObj.reg 1) 1 false
    ⟨true, [true], [WStep.ok 1], [true], [(true, true)]⟩
    [(false, false)] (by decide)).1

end Shredder
